import Mathlib

/-!
# Verification of the z80pack assembler object-file emitter (`z80asm/z80aout.c`)

This file gives a shallow embedding of the object-code emission layer of the
z80asm macro assembler: the functions `obj_header`, `obj_end`, `obj_org`,
`obj_writeb`, `obj_fill`, `obj_fill_value`, `fill_bin`, `eof_hex`, `flush_hex`,
`hex_record` and `chksum` from `z80aout.c`, together with the static state
they manipulate (`nseq_flag`, `curr_addr`, `bin_addr`, `hex_addr`, `hex_cnt`,
`hex_buf`) and the configuration globals they read (`obj_fmt`, `load_flag`,
`load_addr`, `nofill_flag`, `hexlen`).

`WORD` values are modelled as `Nat` reduced mod 2^16 wherever the C code
performs a `WORD` assignment or increment; `BYTE` stores truncate mod 2^8.
Output to the object file is modelled explicitly: binary bytes written with
`putc`/`fwrite`, Intel-hex records written with `hex_record`, and error codes
reported through `asmerr`.
-/

namespace Z80Aout

/-- The object-file format selector `obj_fmt` (`OBJ_BIN`, `OBJ_MOS`,
`OBJ_HEX` in `z80a.h`). -/
inductive ObjFmt where
  | OBJ_BIN : ObjFmt
  | OBJ_MOS : ObjFmt
  | OBJ_HEX : ObjFmt
deriving DecidableEq, Repr

/-- Configuration globals read by the emitter: output format, optional load
address (`load_flag`/`load_addr`), the `-x` no-fill toggle (`nofill_flag`)
and the hex record length limit (`hexlen`). -/
structure Config where
  obj_fmt : ObjFmt
  load_flag : Bool
  load_addr : Nat
  nofill_flag : Bool
  hexlen : Nat
deriving DecidableEq, Repr

/-- The static emitter state of `z80aout.c`: non-sequential ORG flag,
current logical file address, current address written to the binary file,
current address of the hex record buffer, and the hex record buffer itself
(`hex_cnt` is `hex_buf.length`). -/
structure St where
  nseq_flag : Bool
  curr_addr : Nat
  bin_addr : Nat
  hex_addr : Nat
  hex_buf : List Nat
deriving DecidableEq, Repr

/-- All static variables start zeroed / empty. -/
def initSt : St := ⟨false, 0, 0, 0, []⟩

/-- One Intel-hex record as written by `hex_record`: byte count, starting
address, record type, payload bytes, checksum byte. -/
structure HexRec where
  cnt : Nat
  addr : Nat
  rtype : Nat
  payload : List Nat
  chk : Nat
deriving DecidableEq, Repr

/-- Output produced by an emitter operation: bytes written to a binary
object file, hex records written to a hex object file, and error codes
reported via `asmerr`. -/
structure Out where
  bytes : List Nat
  recs : List HexRec
  errs : List Nat
deriving DecidableEq, Repr

/-- Empty output. -/
def Out.nil : Out := ⟨[], [], []⟩

/-- Concatenation of outputs, in emission order. -/
def Out.app (a b : Out) : Out := ⟨a.bytes ++ b.bytes, a.recs ++ b.recs, a.errs ++ b.errs⟩

/-- Error code 9, `E_NSQWRT`: "non-sequential object code". -/
def E_NSQWRT : Nat := 9

/-- Error code 19, `E_BFRORG`: "object code before ORG". -/
def E_BFRORG : Nat := 19

/-- `HEX_DATA`: Intel hex data record type. -/
def HEX_DATA : Nat := 0

/-- `HEX_EOF`: Intel hex end-of-file record type. -/
def HEX_EOF : Nat := 1

/-- Sum of a list of byte values. -/
def sumList (l : List Nat) : Nat := l.foldr (· + ·) 0

/-- `chksum`: compute the checksum for an Intel hex record.  The C code
accumulates into a `BYTE` (mod 256 at every step, which equals reducing the
total) and returns its arithmetic negation as a `BYTE`. -/
def chksum (rec_type : Nat) (s : St) : Nat :=
  let sum := (s.hex_buf.length + s.hex_addr / 256 + s.hex_addr % 256
              + rec_type + sumList s.hex_buf) % 256
  (256 - sum) % 256

/-- `hex_record`: build the record written (in ASCII) into the object file:
count field `hex_cnt`, address field `hex_addr`, the record type, the
buffered payload and the checksum. -/
def hex_record (rec_type : Nat) (s : St) : HexRec :=
  ⟨s.hex_buf.length, s.hex_addr, rec_type, s.hex_buf, chksum rec_type s⟩

/-- `flush_hex`: if the hex buffer is non-empty, emit it as a data record
and clear it; in any case reset `hex_addr` to `curr_addr`. -/
def flush_hex (s : St) : St × Out :=
  if s.hex_buf.length ≠ 0 then
    ({ s with hex_buf := [], hex_addr := s.curr_addr },
     ⟨[], [hex_record HEX_DATA s], []⟩)
  else
    ({ s with hex_addr := s.curr_addr }, Out.nil)

/-- `eof_hex`: clear the buffer, set `hex_addr` to the start address and
emit an end-of-file record. -/
def eof_hex (addr : Nat) (s : St) : St × Out :=
  let s1 := { s with hex_buf := [], hex_addr := addr % 65536 }
  (s1, ⟨[], [hex_record HEX_EOF s1], []⟩)

/-- `fill_bin`: fill the binary object file with `0xff` bytes while
`bin_addr < curr_addr`, advancing `bin_addr`. -/
def fill_bin (s : St) : St × List Nat :=
  if s.bin_addr < s.curr_addr then
    ({ s with bin_addr := s.curr_addr }, List.replicate (s.curr_addr - s.bin_addr) 0xff)
  else
    (s, [])

/-- `obj_header`: write the object file header.  `OBJ_MOS` writes a `0xff`
marker followed by the load address, low byte first; the other formats
write nothing. -/
def obj_header (cfg : Config) : List Nat :=
  match cfg.obj_fmt with
  | .OBJ_BIN => []
  | .OBJ_MOS => [0xff, cfg.load_addr % 256, cfg.load_addr / 256 % 256]
  | .OBJ_HEX => []

/-- `obj_end`: write the end of the object file.  Binary formats fill up to
the logical address unless `-x` was given or the load address was never
reached; `OBJ_HEX` flushes the pending record and emits the end-of-file
record carrying `start_addr`. -/
def obj_end (cfg : Config) (start_addr : Nat) (s : St) : St × Out :=
  match cfg.obj_fmt with
  | .OBJ_BIN | .OBJ_MOS =>
    if ¬cfg.nofill_flag ∧ ¬(cfg.load_flag ∧ s.bin_addr < cfg.load_addr) then
      let r := fill_bin s
      (r.1, ⟨r.2, [], []⟩)
    else
      (s, Out.nil)
  | .OBJ_HEX =>
    let r1 := flush_hex s
    let r2 := eof_hex start_addr r1.1
    (r2.1, Out.app r1.2 r2.2)

/-- `obj_org`: set the logical address.  For binary formats this records
whether the new address regressed below the current one (`nseq_flag`), and
while the load address has not been reached it teleports `bin_addr` to the
new address. -/
def obj_org (cfg : Config) (addr0 : Nat) (s : St) : St :=
  let addr := addr0 % 65536
  match cfg.obj_fmt with
  | .OBJ_BIN | .OBJ_MOS =>
    { s with nseq_flag := decide (addr < s.curr_addr),
             bin_addr := if cfg.load_flag ∧ s.bin_addr < cfg.load_addr then addr
                         else s.bin_addr,
             curr_addr := addr }
  | .OBJ_HEX =>
    { s with curr_addr := addr }

/-- The per-byte loop shared by `obj_writeb` and `obj_fill_value` in the
`OBJ_HEX` branch: for each byte, flush first if the buffer has reached
`hexlen`, then append the byte and advance `curr_addr`. -/
def hex_put (hexlen : Nat) : List Nat → St → St × Out
  | [], s => (s, Out.nil)
  | b :: rest, s =>
    let r1 := if s.hex_buf.length ≥ hexlen then flush_hex s else (s, Out.nil)
    let s2 := { r1.1 with hex_buf := r1.1.hex_buf ++ [b],
                          curr_addr := (r1.1.curr_addr + 1) % 65536 }
    let r3 := hex_put hexlen rest s2
    (r3.1, Out.app r1.2 r3.2)

/-- The discontinuity check shared by `obj_writeb` and `obj_fill_value` in
the `OBJ_HEX` branch: flush when the buffer no longer ends at `curr_addr`. -/
def hex_sync (s : St) : St × Out :=
  if s.hex_addr + s.hex_buf.length ≠ s.curr_addr then flush_hex s else (s, Out.nil)

/-- `obj_writeb`: write the opcode bytes `ops[0..op_cnt-1]` into the object
file at the current logical address. -/
def obj_writeb (cfg : Config) (ops : List Nat) (s : St) : St × Out :=
  if ops.length = 0 then (s, Out.nil) else
  match cfg.obj_fmt with
  | .OBJ_BIN | .OBJ_MOS =>
    if s.nseq_flag then
      (s, ⟨[], [], [E_NSQWRT]⟩)
    else if cfg.load_flag ∧ s.bin_addr < cfg.load_addr then
      ({ s with curr_addr := (s.curr_addr + ops.length) % 65536 },
       ⟨[], [], [E_BFRORG]⟩)
    else
      let r := fill_bin s
      ({ r.1 with bin_addr := (r.1.bin_addr + ops.length) % 65536,
                  curr_addr := (r.1.curr_addr + ops.length) % 65536 },
       ⟨r.2 ++ ops, [], []⟩)
  | .OBJ_HEX =>
    let r1 := hex_sync s
    let r2 := hex_put cfg.hexlen ops r1.1
    (r2.1, Out.app r1.2 r2.2)

/-- `obj_fill`: advance the logical address by `count` without writing.
Binary formats skip the advance while `nseq_flag` is set. -/
def obj_fill (cfg : Config) (count0 : Nat) (s : St) : St :=
  let count := count0 % 65536
  if count = 0 then s else
  match cfg.obj_fmt with
  | .OBJ_BIN | .OBJ_MOS =>
    if s.nseq_flag then s
    else { s with curr_addr := (s.curr_addr + count) % 65536 }
  | .OBJ_HEX =>
    { s with curr_addr := (s.curr_addr + count) % 65536 }

/-- `obj_fill_value`: write `count` copies of the low byte of `value` into
the object file, with the same address discipline as `obj_writeb`
(`putc(value)` and the `BYTE` store into `hex_buf` truncate mod 256). -/
def obj_fill_value (cfg : Config) (count0 value0 : Nat) (s : St) : St × Out :=
  let count := count0 % 65536
  let value := value0 % 65536
  if count = 0 then (s, Out.nil) else
  match cfg.obj_fmt with
  | .OBJ_BIN | .OBJ_MOS =>
    if s.nseq_flag then
      (s, ⟨[], [], [E_NSQWRT]⟩)
    else if cfg.load_flag ∧ s.bin_addr < cfg.load_addr then
      ({ s with curr_addr := (s.curr_addr + count) % 65536 },
       ⟨[], [], [E_BFRORG]⟩)
    else
      let r := fill_bin s
      ({ r.1 with bin_addr := (r.1.bin_addr + count) % 65536,
                  curr_addr := (r.1.curr_addr + count) % 65536 },
       ⟨r.2 ++ List.replicate count (value % 256), [], []⟩)
  | .OBJ_HEX =>
    let r1 := hex_sync s
    let r2 := hex_put cfg.hexlen (List.replicate count (value % 256)) r1.1
    (r2.1, Out.app r1.2 r2.2)

/-- One emitter operation issued by the code-generation pass. -/
inductive Op where
  | org (addr : Nat) : Op
  | writeb (ops : List Nat) : Op
  | fill (count : Nat) : Op
  | fillVal (count value : Nat) : Op
deriving DecidableEq, Repr

/-- Dispatch one operation. -/
def step (cfg : Config) (s : St) : Op → St × Out
  | .org a => (obj_org cfg a s, Out.nil)
  | .writeb bs => obj_writeb cfg bs s
  | .fill c => (obj_fill cfg c s, Out.nil)
  | .fillVal c v => obj_fill_value cfg c v s

/-- Run a list of operations from a state, concatenating output. -/
def runOps (cfg : Config) (s : St) : List Op → St × Out
  | [] => (s, Out.nil)
  | op :: rest =>
    let r1 := step cfg s op
    let r2 := runOps cfg r1.1 rest
    (r2.1, Out.app r1.2 r2.2)

/-- A complete assembly run: `obj_header`, the operations, `obj_end`. -/
def assemble (cfg : Config) (ops : List Op) (start_addr : Nat) : Out :=
  let r1 := runOps cfg initSt ops
  let r2 := obj_end cfg start_addr r1.1
  Out.app ⟨obj_header cfg, [], []⟩ (Out.app r1.2 r2.2)

/-! ## Helper lemmas -/

@[simp]
theorem Out.app_nil_left (o : Out) : Out.app Out.nil o = o := by
  cases o; simp [Out.app, Out.nil]

@[simp]
theorem Out.app_nil_right (o : Out) : Out.app o Out.nil = o := by
  cases o; simp [Out.app, Out.nil]

@[simp]
theorem Out.app_bytes (a b : Out) : (Out.app a b).bytes = a.bytes ++ b.bytes := rfl

@[simp]
theorem Out.app_recs (a b : Out) : (Out.app a b).recs = a.recs ++ b.recs := rfl

@[simp]
theorem Out.app_errs (a b : Out) : (Out.app a b).errs = a.errs ++ b.errs := rfl

/-- `fill_bin` in closed form: the new `bin_addr` is the maximum of the two
cursors and the emitted filler is `curr_addr - bin_addr` sentinel bytes. -/
theorem fill_bin_eq (s : St) :
    fill_bin s = ({ s with bin_addr := max s.bin_addr s.curr_addr },
                  List.replicate (s.curr_addr - s.bin_addr) 0xff) := by
  rw [fill_bin]
  split
  · rename_i h
    rw [Nat.max_eq_right (Nat.le_of_lt h)]
  · rename_i h
    have h1 : s.curr_addr - s.bin_addr = 0 := by omega
    rw [Nat.max_eq_left (by omega), h1]
    rfl

/-! ## Example configurations used in concrete runs -/

/-- Raw binary output, no load address, gap fill enabled. -/
def cfgBin : Config := ⟨.OBJ_BIN, false, 0, false, 16⟩

/-- Raw binary output with a configured load address of 1. -/
def cfgBinLoad : Config := ⟨.OBJ_BIN, true, 1, false, 16⟩

/-- Intel hex output with a 4-byte record length limit. -/
def cfgHex4 : Config := ⟨.OBJ_HEX, false, 0, false, 4⟩

/-! ## C8: the raw-binary gap-fill example -/

/-- C8: In RAW_BINARY mode from the initial state, writing bytes
`[0x01,0x02]` at address 0, then setting the origin to 5, then writing
`[0x03]`, then calling `end()` produces exactly the 6-byte file
`01 02 FF FF FF 03`, with the gap at addresses 2 through 4 filled with the
sentinel byte `0xFF`. -/
theorem c8_raw_binary_example :
    assemble cfgBin [Op.writeb [0x01, 0x02], Op.org 5, Op.writeb [0x03]] 0 =
      ⟨[0x01, 0x02, 0xff, 0xff, 0xff, 0x03], [], []⟩ := by
  decide

/-! ## C9: flush idempotence -/

/-- C9: In HEX_RECORD mode, `flush` is idempotent: flushing an
empty-buffer state emits nothing and only resets the record address to the
current logical address, a second flush right after any flush emits nothing
and leaves the state unchanged, and the first flush emits exactly one
record when the buffer was non-empty and none when it was empty. -/
theorem c9_flush_idempotent (s : St) :
    flush_hex (flush_hex s).1 = ((flush_hex s).1, Out.nil)
  ∧ flush_hex { s with hex_buf := [] } =
      ({ s with hex_buf := [], hex_addr := s.curr_addr }, Out.nil)
  ∧ (flush_hex s).2.recs.length = (if s.hex_buf.isEmpty then 0 else 1) := by
  refine ⟨?_, ?_, ?_⟩
  · cases h : s.hex_buf with
    | nil => simp [flush_hex, h]
    | cons b bs => simp [flush_hex, h]
  · simp [flush_hex]
  · cases h : s.hex_buf with
    | nil => simp [flush_hex, h, Out.nil]
    | cons b bs => simp [flush_hex, h]

/-! ## C5: writes while the non-sequential latch is set -/

/-- C5: In RAW_BINARY/LOADER_BINARY mode, every (non-empty) `write` or
`fill_value` call made while `non_sequential` is latched reports the
`NonSequentialWrite` error and changes nothing else: no bytes are written,
no records are emitted, and the state (logical address and physical cursor
included) is unchanged. -/
theorem c5_nseq_discard (cfg : Config) (s : St) (bs : List Nat) (c v : Nat)
    (hfmt : cfg.obj_fmt = .OBJ_BIN ∨ cfg.obj_fmt = .OBJ_MOS)
    (hn : s.nseq_flag = true) (hbs : bs ≠ []) (hc : c % 65536 ≠ 0) :
    obj_writeb cfg bs s = (s, ⟨[], [], [E_NSQWRT]⟩)
  ∧ obj_fill_value cfg c v s = (s, ⟨[], [], [E_NSQWRT]⟩) := by
  rcases hfmt with h | h <;>
    simp [obj_writeb, obj_fill_value, h, hn, hc, hbs]

/-- Witness for C5 at a concrete latched state. -/
theorem c5_nseq_discard_witness :
    obj_writeb cfgBin [7] ⟨true, 5, 11, 0, []⟩ = (⟨true, 5, 11, 0, []⟩, ⟨[], [], [E_NSQWRT]⟩)
  ∧ obj_fill_value cfgBin 2 0 ⟨true, 5, 11, 0, []⟩ =
      (⟨true, 5, 11, 0, []⟩, ⟨[], [], [E_NSQWRT]⟩) :=
  c5_nseq_discard cfgBin ⟨true, 5, 11, 0, []⟩ [7] 2 0 (Or.inl rfl) rfl
    (by decide) (by decide)

/-! ## C6: writes before the load address -/

/-- C6: In RAW_BINARY/LOADER_BINARY mode with a load address configured,
every non-empty `write` or `fill_value` call made while `non_sequential`
is clear and the physical cursor is below the load address reports the
`WriteBeforeOrigin` error exactly once, writes no bytes, leaves the
physical cursor unchanged, yet still advances the logical address by the
byte count (mod 2^16). -/
theorem c6_before_org_discard (cfg : Config) (s : St) (bs : List Nat) (c v : Nat)
    (hfmt : cfg.obj_fmt = .OBJ_BIN ∨ cfg.obj_fmt = .OBJ_MOS)
    (hn : s.nseq_flag = false) (hload : cfg.load_flag = true)
    (hgate : s.bin_addr < cfg.load_addr) (hbs : bs ≠ []) (hc : c % 65536 ≠ 0) :
    obj_writeb cfg bs s =
      ({ s with curr_addr := (s.curr_addr + bs.length) % 65536 }, ⟨[], [], [E_BFRORG]⟩)
  ∧ obj_fill_value cfg c v s =
      ({ s with curr_addr := (s.curr_addr + c % 65536) % 65536 }, ⟨[], [], [E_BFRORG]⟩) := by
  rcases hfmt with h | h <;>
    simp [obj_writeb, obj_fill_value, h, hn, hc, hbs, hload, hgate]

/-- Witness for C6 at a concrete state below the load address. -/
theorem c6_before_org_discard_witness :
    obj_writeb cfgBinLoad [7, 8] ⟨false, 3, 0, 0, []⟩ =
      (⟨false, 5, 0, 0, []⟩, ⟨[], [], [E_BFRORG]⟩)
  ∧ obj_fill_value cfgBinLoad 4 0 ⟨false, 3, 0, 0, []⟩ =
      (⟨false, 7, 0, 0, []⟩, ⟨[], [], [E_BFRORG]⟩) :=
  c6_before_org_discard cfgBinLoad ⟨false, 3, 0, 0, []⟩ [7, 8] 4 0 (Or.inl rfl)
    rfl rfl (by decide) (by decide) (by decide)

/-! ## C7: the final fill at end() -/

/-- C7: In RAW_BINARY/LOADER_BINARY mode, `end(start_address)` performs a
final `0xFF` sentinel fill from the physical cursor up to the logical
address exactly when gap-filling is enabled (`nofill_flag` clear) and it is
not the case that a load address is configured with the physical cursor
still below it; otherwise it appends nothing to the file.  In either case
it emits no records and no errors. -/
theorem c7_end_fill (cfg : Config) (s : St) (start : Nat)
    (hfmt : cfg.obj_fmt = .OBJ_BIN ∨ cfg.obj_fmt = .OBJ_MOS) :
    obj_end cfg start s =
      if ¬cfg.nofill_flag ∧ ¬(cfg.load_flag ∧ s.bin_addr < cfg.load_addr) then
        ({ s with bin_addr := max s.bin_addr s.curr_addr },
         ⟨List.replicate (s.curr_addr - s.bin_addr) 0xff, [], []⟩)
      else (s, Out.nil) := by
  rcases hfmt with h | h <;>
  · simp only [obj_end, h, fill_bin_eq]

/-- Witness for C7: a state with a 3-byte trailing gap is filled. -/
theorem c7_end_fill_witness :
    obj_end cfgBin 0 ⟨false, 8, 5, 0, []⟩ =
      if ¬cfgBin.nofill_flag ∧ ¬(cfgBin.load_flag ∧ (5 : Nat) < cfgBin.load_addr) then
        (⟨false, 8, 8, 0, []⟩, ⟨[0xff, 0xff, 0xff], [], []⟩)
      else (⟨false, 8, 5, 0, []⟩, Out.nil) := by
  have h := c7_end_fill cfgBin ⟨false, 8, 5, 0, []⟩ 0 (Or.inl rfl)
  simpa using h

/-! ## C2: the record checksum property -/

/-- The unsigned byte-wise sum of all fields of a hex record: count,
address high byte, address low byte, type, payload bytes and checksum. -/
def recSum (r : HexRec) : Nat :=
  r.cnt + r.addr / 256 + r.addr % 256 + r.rtype + sumList r.payload + r.chk

/-- A record self-checks: its field sum vanishes mod 256 and its checksum
is a byte. -/
def recOk (r : HexRec) : Prop := recSum r % 256 = 0 ∧ r.chk < 256

/-- Every output of an operation contains only self-checking records. -/
def OutOk (o : Out) : Prop := ∀ r ∈ o.recs, recOk r

theorem outOk_nil : OutOk Out.nil := by
  intro r hr
  simp [Out.nil] at hr

theorem outOk_app {a b : Out} (ha : OutOk a) (hb : OutOk b) : OutOk (Out.app a b) := by
  intro r hr
  rw [Out.app_recs, List.mem_append] at hr
  exact hr.elim (ha r) (hb r)

/-- The record built by `hex_record` always self-checks: `chksum` is the
two's complement mod 256 of the sum of the other fields. -/
theorem recOk_hex_record (t : Nat) (s : St) : recOk (hex_record t s) := by
  constructor
  · show (s.hex_buf.length + s.hex_addr / 256 + s.hex_addr % 256 + t
          + sumList s.hex_buf + chksum t s) % 256 = 0
    rw [chksum]
    omega
  · show chksum t s < 256
    rw [chksum]
    omega

theorem outOk_flush_hex (s : St) : OutOk (flush_hex s).2 := by
  intro r hr
  rw [flush_hex] at hr
  split at hr
  · simp only [List.mem_singleton] at hr
    exact hr ▸ recOk_hex_record HEX_DATA s
  · simp [Out.nil] at hr

theorem outOk_eof_hex (a : Nat) (s : St) : OutOk (eof_hex a s).2 := by
  intro r hr
  rw [eof_hex] at hr
  simp only [List.mem_singleton] at hr
  exact hr ▸ recOk_hex_record HEX_EOF _

theorem outOk_hex_put (n : Nat) (bs : List Nat) (s : St) : OutOk (hex_put n bs s).2 := by
  induction bs generalizing s with
  | nil => exact outOk_nil
  | cons b rest ih =>
    rw [hex_put]
    refine outOk_app ?_ (ih _)
    split
    · exact outOk_flush_hex s
    · exact outOk_nil

theorem outOk_hex_sync (s : St) : OutOk (hex_sync s).2 := by
  rw [hex_sync]
  split
  · exact outOk_flush_hex s
  · exact outOk_nil

theorem outOk_obj_writeb (cfg : Config) (bs : List Nat) (s : St) :
    OutOk (obj_writeb cfg bs s).2 := by
  rw [obj_writeb]
  split
  · exact outOk_nil
  · match h : cfg.obj_fmt with
    | .OBJ_BIN | .OBJ_MOS =>
      simp only [h]
      split
      · intro r hr; simp at hr
      · split
        · intro r hr; simp at hr
        · intro r hr; simp at hr
    | .OBJ_HEX =>
      simp only [h]
      exact outOk_app (outOk_hex_sync s) (outOk_hex_put _ _ _)

theorem outOk_obj_fill_value (cfg : Config) (c v : Nat) (s : St) :
    OutOk (obj_fill_value cfg c v s).2 := by
  rw [obj_fill_value]
  split
  · exact outOk_nil
  · match h : cfg.obj_fmt with
    | .OBJ_BIN | .OBJ_MOS =>
      simp only [h]
      split
      · intro r hr; simp at hr
      · split
        · intro r hr; simp at hr
        · intro r hr; simp at hr
    | .OBJ_HEX =>
      simp only [h]
      exact outOk_app (outOk_hex_sync s) (outOk_hex_put _ _ _)

theorem outOk_step (cfg : Config) (s : St) (op : Op) : OutOk (step cfg s op).2 := by
  cases op with
  | org a => exact outOk_nil
  | writeb bs => exact outOk_obj_writeb cfg bs s
  | fill c => exact outOk_nil
  | fillVal c v => exact outOk_obj_fill_value cfg c v s

theorem outOk_runOps (cfg : Config) (ops : List Op) (s : St) :
    OutOk (runOps cfg s ops).2 := by
  induction ops generalizing s with
  | nil => exact outOk_nil
  | cons op rest ih =>
    rw [runOps]
    exact outOk_app (outOk_step cfg s op) (ih _)

theorem outOk_obj_end (cfg : Config) (start : Nat) (s : St) :
    OutOk (obj_end cfg start s).2 := by
  rw [obj_end]
  match h : cfg.obj_fmt with
  | .OBJ_BIN | .OBJ_MOS =>
    simp only [h]
    split
    · intro r hr; simp at hr
    · exact outOk_nil
  | .OBJ_HEX =>
    simp only [h]
    exact outOk_app (outOk_flush_hex s) (outOk_eof_hex _ _)

/-- C2: For every hex record emitted during any complete assembly run,
whether a data record (type 0) or the end-of-file record (type 1), the
checksum field is a byte equal to the two's complement mod 256 of the sum
of the count field, the address bytes, the type field and the payload
bytes, so that the unsigned byte-wise sum of all record fields including
the checksum is congruent to 0 mod 256. -/
theorem c2_checksum_zero (cfg : Config) (ops : List Op) (start : Nat)
    (r : HexRec) (hr : r ∈ (assemble cfg ops start).recs) :
    recSum r % 256 = 0 ∧ r.chk < 256 := by
  rw [assemble] at hr
  have h1 : OutOk (⟨obj_header cfg, [], []⟩ : Out) := by
    intro r' hr'
    simp at hr'
  have h2 := outOk_app (outOk_runOps cfg ops initSt)
    (outOk_obj_end cfg start (runOps cfg initSt ops).1)
  exact outOk_app h1 h2 r hr

/-- Witness for C2: the two records of a one-byte hex run self-check. -/
theorem c2_checksum_zero_witness :
    (recSum ⟨1, 0, 0, [1], 254⟩ % 256 = 0 ∧ (254 : Nat) < 256)
  ∧ (recSum ⟨0, 0, 1, [], 255⟩ % 256 = 0 ∧ (255 : Nat) < 256) :=
  ⟨c2_checksum_zero cfgHex4 [Op.writeb [1]] 0 ⟨1, 0, 0, [1], 254⟩ (by decide),
   c2_checksum_zero cfgHex4 [Op.writeb [1]] 0 ⟨0, 0, 1, [], 255⟩ (by decide)⟩

/-! ## Payload accounting for the hex encoder -/

/-- The payload bytes of a list of records, in emission order. -/
def recsPayload (rs : List HexRec) : List Nat := (rs.map HexRec.payload).flatten

@[simp]
theorem recsPayload_nil : recsPayload [] = [] := rfl

@[simp]
theorem recsPayload_cons (r : HexRec) (rs : List HexRec) :
    recsPayload (r :: rs) = r.payload ++ recsPayload rs := by
  simp [recsPayload]

@[simp]
theorem recsPayload_append (a b : List HexRec) :
    recsPayload (a ++ b) = recsPayload a ++ recsPayload b := by
  simp [recsPayload]

/-- Flushing moves the buffered bytes into the record stream and nothing
else: payload-so-far plus pending buffer is preserved. -/
theorem flush_hex_payload (s : St) :
    recsPayload (flush_hex s).2.recs ++ (flush_hex s).1.hex_buf = s.hex_buf
  ∧ (flush_hex s).2.bytes = [] ∧ (flush_hex s).2.errs = [] := by
  rw [flush_hex]
  split
  · simp [hex_record]
  · simp [Out.nil]

/-- The per-byte hex loop appends exactly the given bytes to the stream of
record payloads plus pending buffer; it writes no binary bytes and no
errors. -/
theorem hex_put_payload (n : Nat) (bs : List Nat) (s : St) :
    recsPayload (hex_put n bs s).2.recs ++ (hex_put n bs s).1.hex_buf = s.hex_buf ++ bs
  ∧ (hex_put n bs s).2.bytes = [] ∧ (hex_put n bs s).2.errs = [] := by
  induction bs generalizing s with
  | nil => simp [hex_put, Out.nil]
  | cons b rest ih =>
    rw [hex_put]
    split
    · have hf := flush_hex_payload s
      have hr := ih { (flush_hex s).1 with
                      hex_buf := (flush_hex s).1.hex_buf ++ [b],
                      curr_addr := ((flush_hex s).1.curr_addr + 1) % 65536 }
      refine ⟨?_, ?_, ?_⟩
      · simp only [Out.app_recs, recsPayload_append, List.append_assoc]
        rw [hr.1]
        simp only [← List.append_assoc]
        rw [hf.1]
        simp
      · simp [hr.2.1, hf.2.1]
      · simp [hr.2.2, hf.2.2]
    · have hr := ih { s with hex_buf := s.hex_buf ++ [b],
                             curr_addr := (s.curr_addr + 1) % 65536 }
      refine ⟨?_, ?_, ?_⟩
      · simp only [Out.app_recs, Out.nil, List.nil_append, recsPayload_append]
        rw [hr.1]
        simp
      · simp [Out.nil, hr.2.1]
      · simp [Out.nil, hr.2.2]

/-- The discontinuity check preserves pending payload. -/
theorem hex_sync_payload (s : St) :
    recsPayload (hex_sync s).2.recs ++ (hex_sync s).1.hex_buf = s.hex_buf
  ∧ (hex_sync s).2.bytes = [] ∧ (hex_sync s).2.errs = [] := by
  rw [hex_sync]
  split
  · exact flush_hex_payload s
  · simp [Out.nil]

/-- `obj_writeb` in hex mode appends exactly the supplied bytes to the
payload stream. -/
theorem obj_writeb_hex_payload (cfg : Config) (bs : List Nat) (s : St)
    (h : cfg.obj_fmt = .OBJ_HEX) :
    recsPayload (obj_writeb cfg bs s).2.recs ++ (obj_writeb cfg bs s).1.hex_buf
      = s.hex_buf ++ bs
  ∧ (obj_writeb cfg bs s).2.bytes = [] ∧ (obj_writeb cfg bs s).2.errs = [] := by
  rw [obj_writeb]
  split
  · rename_i hlen
    rw [List.length_eq_zero] at hlen
    simp [hlen, Out.nil]
  · simp only [h]
    have hs := hex_sync_payload s
    have hp := hex_put_payload cfg.hexlen bs (hex_sync s).1
    refine ⟨?_, ?_, ?_⟩
    · simp only [Out.app_recs, recsPayload_append, List.append_assoc]
      rw [hp.1]
      simp only [← List.append_assoc]
      rw [hs.1]
    · simp [hs.2.1, hp.2.1]
    · simp [hs.2.2, hp.2.2]

/-- `obj_fill_value` in hex mode appends exactly `count` copies of the low
byte of `value` to the payload stream. -/
theorem obj_fill_value_hex_payload (cfg : Config) (c v : Nat) (s : St)
    (h : cfg.obj_fmt = .OBJ_HEX) :
    recsPayload (obj_fill_value cfg c v s).2.recs ++ (obj_fill_value cfg c v s).1.hex_buf
      = s.hex_buf ++ List.replicate (c % 65536) (v % 65536 % 256)
  ∧ (obj_fill_value cfg c v s).2.bytes = [] ∧ (obj_fill_value cfg c v s).2.errs = [] := by
  rw [obj_fill_value]
  split
  · rename_i hc
    simp [hc, Out.nil]
  · simp only [h]
    have hs := hex_sync_payload s
    have hp := hex_put_payload cfg.hexlen (List.replicate (c % 65536) (v % 65536 % 256))
      (hex_sync s).1
    refine ⟨?_, ?_, ?_⟩
    · simp only [Out.app_recs, recsPayload_append, List.append_assoc]
      rw [hp.1]
      simp only [← List.append_assoc]
      rw [hs.1]
    · simp [hs.2.1, hp.2.1]
    · simp [hs.2.2, hp.2.2]

/-! ## C10: fill_value truncates the value to its low byte -/

/-- C10: `fill_value` accepts a 16-bit value argument, and for every
`count > 0` each byte it emits (binary formats, after the gap fill) or
appends to the hex payload stream (HEX_RECORD) equals `value mod 256`:
values above 255 are silently truncated to their low 8 bits, with no error
reported. -/
theorem c10_fill_value_truncate (cfg : Config) (s : St) (c v : Nat)
    (hc : c % 65536 ≠ 0) :
    ((cfg.obj_fmt = .OBJ_BIN ∨ cfg.obj_fmt = .OBJ_MOS) → s.nseq_flag = false →
      ¬(cfg.load_flag ∧ s.bin_addr < cfg.load_addr) →
      (obj_fill_value cfg c v s).2.bytes
        = List.replicate (s.curr_addr - s.bin_addr) 0xff
            ++ List.replicate (c % 65536) (v % 256)
      ∧ (obj_fill_value cfg c v s).2.errs = [])
  ∧ (cfg.obj_fmt = .OBJ_HEX →
      recsPayload (obj_fill_value cfg c v s).2.recs
          ++ (obj_fill_value cfg c v s).1.hex_buf
        = s.hex_buf ++ List.replicate (c % 65536) (v % 256)
      ∧ (obj_fill_value cfg c v s).2.errs = []) := by
  have hmod : v % 65536 % 256 = v % 256 := Nat.mod_mod_of_dvd v (by norm_num)
  constructor
  · intro hfmt hn hgate
    rcases hfmt with h | h <;>
    · rw [obj_fill_value]
      simp only [h, hc, if_neg hc, hn, if_neg hgate, fill_bin_eq, hmod]
      simp
  · intro h
    have hp := obj_fill_value_hex_payload cfg c v s h
    rw [hmod] at hp
    exact ⟨hp.1, hp.2.2⟩

/-- Witness for C10: filling 2 bytes with value 300 emits two bytes 44 in
binary mode and appends two bytes 44 in hex mode. -/
theorem c10_fill_value_truncate_witness :
    ((obj_fill_value cfgBin 2 300 ⟨false, 3, 1, 0, []⟩).2.bytes
        = List.replicate 2 0xff ++ List.replicate 2 44
      ∧ (obj_fill_value cfgBin 2 300 ⟨false, 3, 1, 0, []⟩).2.errs = [])
  ∧ (recsPayload (obj_fill_value cfgHex4 2 300 initSt).2.recs
          ++ (obj_fill_value cfgHex4 2 300 initSt).1.hex_buf
        = List.replicate 2 44
      ∧ (obj_fill_value cfgHex4 2 300 initSt).2.errs = []) :=
  ⟨(c10_fill_value_truncate cfgBin ⟨false, 3, 1, 0, []⟩ 2 300 (by decide)).1
      (Or.inl rfl) rfl (by decide),
   (c10_fill_value_truncate cfgHex4 initSt 2 300 (by decide)).2 rfl⟩

/-! ## C3: the non-sequential latch -/

/-- C3 counterexample: the claim says that after `org 10`, one write
(logical address 11) and the regressing `org 5`, the latch is cleared
exactly by an origin `addr ≥ 11` (the logical address current when the
regression was observed).  In the code, however, the regressing origin
already updated `curr_addr` to 5, so `org 6` — with `6 < 11` — also clears
the latch. -/
theorem c3_latch_clear_counterexample :
    (runOps cfgBin initSt [Op.org 10, Op.writeb [7]]).1.curr_addr = 11
  ∧ (runOps cfgBin initSt [Op.org 10, Op.writeb [7], Op.org 5]).1.nseq_flag = true
  ∧ (runOps cfgBin initSt [Op.org 10, Op.writeb [7], Op.org 5, Op.org 6]).1.nseq_flag = false
  ∧ 6 < 11 := by
  decide

/-- C3 (amended): In RAW_BINARY/LOADER_BINARY mode, while `non_sequential`
is latched every `write`/`fill_value` leaves the state (hence the logical
position) unchanged; a `set_origin(addr)` always sets the logical address
to `addr` — including the regressing one — and clears the latch exactly
when `addr` is at least the *current* logical address (the argument of the
most recent origin change, not the position frozen when the regression was
observed).  In particular, for the sequence origin 10, write one byte,
origin 5, write one byte, origin 12, write one byte, the final write
succeeds at address 12 and exactly one `NonSequentialWrite` error is
reported. -/
theorem c3_frozen_latch (cfg : Config) (s : St) (a : Nat) (bs : List Nat) (c v : Nat)
    (hfmt : cfg.obj_fmt = .OBJ_BIN ∨ cfg.obj_fmt = .OBJ_MOS)
    (hn : s.nseq_flag = true) :
    (obj_writeb cfg bs s).1 = s
  ∧ (obj_fill_value cfg c v s).1 = s
  ∧ ((obj_org cfg a s).nseq_flag = false ↔ s.curr_addr ≤ a % 65536)
  ∧ (obj_org cfg a s).curr_addr = a % 65536
  ∧ (runOps cfgBin initSt
       [Op.org 10, Op.writeb [7], Op.org 5, Op.writeb [8], Op.org 12,
        Op.writeb [9]]).1.curr_addr = 13
  ∧ (runOps cfgBin initSt
       [Op.org 10, Op.writeb [7], Op.org 5, Op.writeb [8], Op.org 12,
        Op.writeb [9]]).2.bytes.get? 12 = some 9
  ∧ (runOps cfgBin initSt
       [Op.org 10, Op.writeb [7], Op.org 5, Op.writeb [8], Op.org 12,
        Op.writeb [9]]).2.errs = [E_NSQWRT] := by
  refine ⟨?_, ?_, ?_, ?_, by decide, by decide, by decide⟩
  · rw [obj_writeb]
    split
    · rfl
    · rcases hfmt with h | h <;> simp [h, hn]
  · rw [obj_fill_value]
    split
    · rfl
    · rcases hfmt with h | h <;> simp [h, hn]
  · rcases hfmt with h | h <;>
    · rw [obj_org]
      simp only [h]
      simp [Nat.not_lt]
  · rcases hfmt with h | h <;>
    · rw [obj_org]
      simp [h]

/-- Witness for C3 at a concrete latched state and origin argument. -/
theorem c3_frozen_latch_witness :
    (obj_writeb cfgBin [7] ⟨true, 5, 11, 0, []⟩).1 = ⟨true, 5, 11, 0, []⟩
  ∧ (obj_fill_value cfgBin 2 0 ⟨true, 5, 11, 0, []⟩).1 = ⟨true, 5, 11, 0, []⟩
  ∧ ((obj_org cfgBin 12 ⟨true, 5, 11, 0, []⟩).nseq_flag = false ↔ (5 : Nat) ≤ 12 % 65536)
  ∧ (obj_org cfgBin 12 ⟨true, 5, 11, 0, []⟩).curr_addr = 12 % 65536
  ∧ (runOps cfgBin initSt
       [Op.org 10, Op.writeb [7], Op.org 5, Op.writeb [8], Op.org 12,
        Op.writeb [9]]).1.curr_addr = 13
  ∧ (runOps cfgBin initSt
       [Op.org 10, Op.writeb [7], Op.org 5, Op.writeb [8], Op.org 12,
        Op.writeb [9]]).2.bytes.get? 12 = some 9
  ∧ (runOps cfgBin initSt
       [Op.org 10, Op.writeb [7], Op.org 5, Op.writeb [8], Op.org 12,
        Op.writeb [9]]).2.errs = [E_NSQWRT] :=
  c3_frozen_latch cfgBin ⟨true, 5, 11, 0, []⟩ 12 [7] 2 0 (Or.inl rfl) rfl

/-! ## C4: physical cursor monotonicity -/

/-- C4 counterexample: the claim says the physical cursor never exceeds
the logical address, but after writing 3 bytes and setting the origin back
to 1 the physical cursor is 3 while the logical address is 1. -/
theorem c4_cursor_exceeds_counterexample :
    (runOps cfgBin initSt [Op.writeb [1, 2, 3], Op.org 1]).1.bin_addr = 3
  ∧ (runOps cfgBin initSt [Op.writeb [1, 2, 3], Op.org 1]).1.curr_addr = 1
  ∧ ¬((3 : Nat) ≤ 1) := by
  decide

/-- One-step admissibility for a binary-format run: origin changes never
regress below the current logical address, and no operation carries the
logical address past 2^16. -/
def stepOkB (s : St) : Op → Bool
  | .org a => decide (s.curr_addr ≤ a % 65536)
  | .writeb bs => decide (s.curr_addr + bs.length < 65536)
  | .fill c => decide (s.curr_addr + c % 65536 < 65536)
  | .fillVal c _ => decide (s.curr_addr + c % 65536 < 65536)

/-- Admissibility of a whole operation sequence from a given state. -/
def seqOkB (cfg : Config) (s : St) : List Op → Bool
  | [] => true
  | op :: rest => stepOkB s op && seqOkB cfg (step cfg s op).1 rest

/-- The binary-format run invariant: latch clear, physical cursor at most
the logical address, logical address a 16-bit value. -/
def binInv (s : St) : Prop :=
  s.nseq_flag = false ∧ s.bin_addr ≤ s.curr_addr ∧ s.curr_addr < 65536

theorem binInv_init : binInv initSt := by
  refine ⟨rfl, Nat.le_refl 0, by decide⟩

/-- Normal form of `obj_writeb` for binary formats with the latch clear
and a non-empty byte list. -/
theorem obj_writeb_bin (cfg : Config) (bs : List Nat) (s : St)
    (hfmt : cfg.obj_fmt = .OBJ_BIN ∨ cfg.obj_fmt = .OBJ_MOS)
    (hn : s.nseq_flag = false) (hbs : bs.length ≠ 0) :
    obj_writeb cfg bs s =
      if cfg.load_flag ∧ s.bin_addr < cfg.load_addr then
        ({ s with curr_addr := (s.curr_addr + bs.length) % 65536 },
         ⟨[], [], [E_BFRORG]⟩)
      else
        ({ s with bin_addr := (max s.bin_addr s.curr_addr + bs.length) % 65536,
                  curr_addr := (s.curr_addr + bs.length) % 65536 },
         ⟨List.replicate (s.curr_addr - s.bin_addr) 0xff ++ bs, [], []⟩) := by
  rcases hfmt with h | h <;>
  · rw [obj_writeb, if_neg hbs]
    simp only [h]
    rw [if_neg (show ¬(s.nseq_flag = true) by simp [hn])]
    simp only [fill_bin_eq]

/-- Normal form of `obj_fill_value` for binary formats with the latch
clear and a non-zero count. -/
theorem obj_fill_value_bin (cfg : Config) (c v : Nat) (s : St)
    (hfmt : cfg.obj_fmt = .OBJ_BIN ∨ cfg.obj_fmt = .OBJ_MOS)
    (hn : s.nseq_flag = false) (hc : c % 65536 ≠ 0) :
    obj_fill_value cfg c v s =
      if cfg.load_flag ∧ s.bin_addr < cfg.load_addr then
        ({ s with curr_addr := (s.curr_addr + c % 65536) % 65536 },
         ⟨[], [], [E_BFRORG]⟩)
      else
        ({ s with bin_addr := (max s.bin_addr s.curr_addr + c % 65536) % 65536,
                  curr_addr := (s.curr_addr + c % 65536) % 65536 },
         ⟨List.replicate (s.curr_addr - s.bin_addr) 0xff
            ++ List.replicate (c % 65536) (v % 65536 % 256), [], []⟩) := by
  rcases hfmt with h | h <;>
  · rw [obj_fill_value]
    simp only [h, if_neg hc]
    rw [if_neg (show ¬(s.nseq_flag = true) by simp [hn])]
    simp only [fill_bin_eq]

theorem step_bin_inv (cfg : Config) (s : St) (op : Op)
    (hfmt : cfg.obj_fmt = .OBJ_BIN ∨ cfg.obj_fmt = .OBJ_MOS)
    (hinv : binInv s) (hok : stepOkB s op = true) :
    binInv (step cfg s op).1 ∧ s.bin_addr ≤ (step cfg s op).1.bin_addr := by
  obtain ⟨hn, hbc, hc⟩ := hinv
  cases op with
  | org a =>
    rw [stepOkB, decide_eq_true_eq] at hok
    show binInv (obj_org cfg a s) ∧ s.bin_addr ≤ (obj_org cfg a s).bin_addr
    rcases hfmt with h | h <;>
    · rw [obj_org]
      simp only [h]
      refine ⟨⟨by simp [Nat.not_lt.2 hok], ?_, ?_⟩, ?_⟩
      · split
        · exact Nat.le_refl _
        · exact Nat.le_trans hbc hok
      · exact Nat.mod_lt _ (by decide)
      · split
        · exact Nat.le_trans hbc hok
        · exact Nat.le_refl _
  | writeb bs =>
    rw [stepOkB, decide_eq_true_eq] at hok
    show binInv (obj_writeb cfg bs s).1 ∧ s.bin_addr ≤ (obj_writeb cfg bs s).1.bin_addr
    by_cases hbs : bs.length = 0
    · rw [obj_writeb, if_pos hbs]
      exact ⟨⟨hn, hbc, hc⟩, Nat.le_refl _⟩
    · rw [obj_writeb_bin cfg bs s hfmt hn hbs]
      have hmax : max s.bin_addr s.curr_addr = s.curr_addr := Nat.max_eq_right hbc
      split
      · refine ⟨⟨hn, ?_, ?_⟩, Nat.le_refl _⟩
        · show s.bin_addr ≤ (s.curr_addr + bs.length) % 65536
          rw [Nat.mod_eq_of_lt hok]
          omega
        · show (s.curr_addr + bs.length) % 65536 < 65536
          exact Nat.mod_lt _ (by omega)
      · rw [hmax]
        refine ⟨⟨hn, ?_, ?_⟩, ?_⟩
        · show (s.curr_addr + bs.length) % 65536 ≤ (s.curr_addr + bs.length) % 65536
          exact Nat.le_refl _
        · show (s.curr_addr + bs.length) % 65536 < 65536
          exact Nat.mod_lt _ (by omega)
        · show s.bin_addr ≤ (s.curr_addr + bs.length) % 65536
          rw [Nat.mod_eq_of_lt hok]
          omega
  | fill c =>
    rw [stepOkB, decide_eq_true_eq] at hok
    show binInv (obj_fill cfg c s) ∧ s.bin_addr ≤ (obj_fill cfg c s).bin_addr
    rw [obj_fill]
    split
    · exact ⟨⟨hn, hbc, hc⟩, Nat.le_refl _⟩
    · rcases hfmt with h | h <;>
      · simp only [h]
        rw [if_neg (show ¬(s.nseq_flag = true) by simp [hn])]
        refine ⟨⟨hn, ?_, ?_⟩, Nat.le_refl _⟩
        · show s.bin_addr ≤ (s.curr_addr + c % 65536) % 65536
          rw [Nat.mod_eq_of_lt hok]
          omega
        · show (s.curr_addr + c % 65536) % 65536 < 65536
          exact Nat.mod_lt _ (by omega)
  | fillVal c v =>
    rw [stepOkB, decide_eq_true_eq] at hok
    show binInv (obj_fill_value cfg c v s).1 ∧ s.bin_addr ≤ (obj_fill_value cfg c v s).1.bin_addr
    by_cases hcz : c % 65536 = 0
    · rw [obj_fill_value]
      rw [if_pos hcz]
      exact ⟨⟨hn, hbc, hc⟩, Nat.le_refl _⟩
    · rw [obj_fill_value_bin cfg c v s hfmt hn hcz]
      have hmax : max s.bin_addr s.curr_addr = s.curr_addr := Nat.max_eq_right hbc
      split
      · refine ⟨⟨hn, ?_, ?_⟩, Nat.le_refl _⟩
        · show s.bin_addr ≤ (s.curr_addr + c % 65536) % 65536
          rw [Nat.mod_eq_of_lt hok]
          omega
        · show (s.curr_addr + c % 65536) % 65536 < 65536
          exact Nat.mod_lt _ (by omega)
      · rw [hmax]
        refine ⟨⟨hn, ?_, ?_⟩, ?_⟩
        · show (s.curr_addr + c % 65536) % 65536 ≤ (s.curr_addr + c % 65536) % 65536
          exact Nat.le_refl _
        · show (s.curr_addr + c % 65536) % 65536 < 65536
          exact Nat.mod_lt _ (by omega)
        · show s.bin_addr ≤ (s.curr_addr + c % 65536) % 65536
          rw [Nat.mod_eq_of_lt hok]
          omega

theorem runOps_bin_inv (cfg : Config)
    (hfmt : cfg.obj_fmt = .OBJ_BIN ∨ cfg.obj_fmt = .OBJ_MOS) :
    ∀ (ops : List Op) (s : St), binInv s → seqOkB cfg s ops = true →
      binInv (runOps cfg s ops).1 ∧ s.bin_addr ≤ (runOps cfg s ops).1.bin_addr := by
  intro ops
  induction ops with
  | nil =>
    intro s hinv _
    exact ⟨hinv, Nat.le_refl _⟩
  | cons op rest ih =>
    intro s hinv hseq
    rw [seqOkB, Bool.and_eq_true] at hseq
    have hstep := step_bin_inv cfg s op hfmt hinv hseq.1
    have hrest := ih (step cfg s op).1 hstep.1 hseq.2
    rw [runOps]
    exact ⟨hrest.1, Nat.le_trans hstep.2 hrest.2⟩

/-- Running an appended sequence is running the pieces in order. -/
theorem runOps_append_fst (cfg : Config) (l1 l2 : List Op) :
    ∀ s : St, (runOps cfg s (l1 ++ l2)).1 = (runOps cfg (runOps cfg s l1).1 l2).1 := by
  induction l1 with
  | nil => intro s; rfl
  | cons op rest ih =>
    intro s
    rw [List.cons_append, runOps, runOps]
    exact ih (step cfg s op).1

/-- Admissibility of an appended sequence splits. -/
theorem seqOkB_append (cfg : Config) (l1 l2 : List Op) :
    ∀ s : St, seqOkB cfg s (l1 ++ l2) = true →
      seqOkB cfg s l1 = true ∧ seqOkB cfg (runOps cfg s l1).1 l2 = true := by
  induction l1 with
  | nil =>
    intro s h
    exact ⟨rfl, h⟩
  | cons op rest ih =>
    intro s h
    rw [List.cons_append, seqOkB, Bool.and_eq_true] at h
    have hr := ih (step cfg s op).1 h.2
    refine ⟨?_, ?_⟩
    · rw [seqOkB, Bool.and_eq_true]
      exact ⟨h.1, hr.1⟩
    · rw [runOps]
      exact hr.2

/-- `obj_end` for binary formats can only move the physical cursor forward,
to at most the logical address, and leaves the logical address alone. -/
theorem obj_end_bin_cursor (cfg : Config) (start : Nat) (s : St)
    (hfmt : cfg.obj_fmt = .OBJ_BIN ∨ cfg.obj_fmt = .OBJ_MOS)
    (hbc : s.bin_addr ≤ s.curr_addr) :
    s.bin_addr ≤ (obj_end cfg start s).1.bin_addr
  ∧ (obj_end cfg start s).1.bin_addr ≤ (obj_end cfg start s).1.curr_addr := by
  rcases hfmt with h | h <;>
  · rw [obj_end]
    simp only [h, fill_bin_eq]
    split
    · exact ⟨Nat.le_max_left _ _, Nat.max_le.2 ⟨hbc, Nat.le_refl _⟩⟩
    · exact ⟨Nat.le_refl _, hbc⟩

/-- C4 (amended): In RAW_BINARY/LOADER_BINARY mode, across any sequence of
`set_origin`/`write`/`skip`/`fill_value`/`end` operations from the initial
state in which no origin change regresses below the current logical
address and no operation carries the logical address past 2^16, the
physical cursor never decreases and never exceeds the logical address.
(Without those provisos the claim is false: a regressing origin leaves the
physical cursor above the logical address, and while the load-address gate
is open an origin change can move the physical cursor backwards.) -/
theorem c4_cursor_monotone (cfg : Config) (ops1 ops2 : List Op) (start : Nat)
    (hfmt : cfg.obj_fmt = .OBJ_BIN ∨ cfg.obj_fmt = .OBJ_MOS)
    (hseq : seqOkB cfg initSt (ops1 ++ ops2) = true) :
    (runOps cfg initSt ops1).1.bin_addr ≤ (runOps cfg initSt (ops1 ++ ops2)).1.bin_addr
  ∧ (runOps cfg initSt (ops1 ++ ops2)).1.bin_addr
      ≤ (runOps cfg initSt (ops1 ++ ops2)).1.curr_addr
  ∧ (runOps cfg initSt (ops1 ++ ops2)).1.bin_addr
      ≤ (obj_end cfg start (runOps cfg initSt (ops1 ++ ops2)).1).1.bin_addr
  ∧ (obj_end cfg start (runOps cfg initSt (ops1 ++ ops2)).1).1.bin_addr
      ≤ (obj_end cfg start (runOps cfg initSt (ops1 ++ ops2)).1).1.curr_addr := by
  obtain ⟨hs1, hs2⟩ := seqOkB_append cfg ops1 ops2 initSt hseq
  have h1 := runOps_bin_inv cfg hfmt ops1 initSt binInv_init hs1
  have h2 := runOps_bin_inv cfg hfmt ops2 (runOps cfg initSt ops1).1 h1.1 hs2
  have happ := runOps_append_fst cfg ops1 ops2 initSt
  have hend := obj_end_bin_cursor cfg start (runOps cfg initSt (ops1 ++ ops2)).1 hfmt
    (by rw [happ]; exact h2.1.2.1)
  refine ⟨?_, ?_, hend.1, hend.2⟩
  · rw [happ]
    exact h2.2
  · rw [happ]
    exact h2.1.2.1

/-- Witness for C4 on the concrete C8 run split after the first write. -/
theorem c4_cursor_monotone_witness :
    (runOps cfgBin initSt [Op.writeb [1, 2]]).1.bin_addr
      ≤ (runOps cfgBin initSt ([Op.writeb [1, 2]] ++ [Op.org 5, Op.writeb [3]])).1.bin_addr
  ∧ (runOps cfgBin initSt ([Op.writeb [1, 2]] ++ [Op.org 5, Op.writeb [3]])).1.bin_addr
      ≤ (runOps cfgBin initSt ([Op.writeb [1, 2]] ++ [Op.org 5, Op.writeb [3]])).1.curr_addr
  ∧ (runOps cfgBin initSt ([Op.writeb [1, 2]] ++ [Op.org 5, Op.writeb [3]])).1.bin_addr
      ≤ (obj_end cfgBin 0
          (runOps cfgBin initSt ([Op.writeb [1, 2]] ++ [Op.org 5, Op.writeb [3]])).1).1.bin_addr
  ∧ (obj_end cfgBin 0
        (runOps cfgBin initSt ([Op.writeb [1, 2]] ++ [Op.org 5, Op.writeb [3]])).1).1.bin_addr
      ≤ (obj_end cfgBin 0
          (runOps cfgBin initSt ([Op.writeb [1, 2]] ++ [Op.org 5, Op.writeb [3]])).1).1.curr_addr :=
  c4_cursor_monotone cfgBin [Op.writeb [1, 2]] [Op.org 5, Op.writeb [3]] 0
    (Or.inl rfl) (by decide)

/-! ## C1: payload preservation for monotone runs -/

/-- The bytes a run of operations supplies, in operation (= address)
order: written bytes and fill-value bytes; skips supply nothing. -/
def expList : List Op → List Nat
  | [] => []
  | .org _ :: r => expList r
  | .writeb bs :: r => bs ++ expList r
  | .fill _ :: r => expList r
  | .fillVal c v :: r => List.replicate (c % 65536) (v % 65536 % 256) ++ expList r

/-- Pair each byte of a list with consecutive addresses starting at `a`. -/
def withAddrs : Nat → List Nat → List (Nat × Nat)
  | _, [] => []
  | a, b :: bs => (a, b) :: withAddrs (a + 1) bs

/-- The address/byte pairs a run of operations supplies when started at
logical address `a`. -/
def expAt : Nat → List Op → List (Nat × Nat)
  | _, [] => []
  | a, .org _ :: r => expAt a r
  | a, .writeb bs :: r => withAddrs a bs ++ expAt (a + bs.length) r
  | a, .fill c :: r => expAt (a + c % 65536) r
  | a, .fillVal c v :: r =>
      withAddrs a (List.replicate (c % 65536) (v % 65536 % 256)) ++ expAt (a + c % 65536) r

/-- How far one operation advances the logical address. -/
def opLen : Op → Nat
  | .org _ => 0
  | .writeb bs => bs.length
  | .fill c => c % 65536
  | .fillVal c _ => c % 65536

/-- Total logical span of an operation list. -/
def spanLen (ops : List Op) : Nat := (ops.map opLen).sum

theorem spanLen_nil : spanLen [] = 0 := rfl

theorem spanLen_cons (op : Op) (rest : List Op) :
    spanLen (op :: rest) = opLen op + spanLen rest := by
  simp [spanLen]

/-- Whether an operation is an origin change. -/
def isOrg : Op → Bool
  | .org _ => true
  | _ => false

/-- Whether a sequence contains an origin change. -/
def hasOrg (ops : List Op) : Bool := ops.any isOrg

/-- A byte looked up at the position right after `L` in `L ++ bs` is the
corresponding byte of `bs`. -/
theorem withAddrs_lookup (bs : List Nat) :
    ∀ (L : List Nat), ∀ p ∈ withAddrs L.length bs, (L ++ bs)[p.1]? = some p.2 := by
  induction bs with
  | nil =>
    intro L p hp
    simp [withAddrs] at hp
  | cons b rest ih =>
    intro L p hp
    rw [withAddrs] at hp
    rcases List.mem_cons.1 hp with rfl | hp
    · show (L ++ b :: rest)[L.length]? = some b
      rw [List.getElem?_append_right (Nat.le_refl _)]
      simp
    · have hlen : (L ++ [b]).length = L.length + 1 := by simp
      have := ih (L ++ [b]) p (by rw [hlen]; exact hp)
      simpa [List.append_assoc] using this

/-- A successful lookup is preserved by appending on the right. -/
theorem getElem?_append_some {α : Type} {l l' : List α} {n : Nat} {a : α}
    (h : l[n]? = some a) : (l ++ l')[n]? = some a := by
  have hn : n < l.length := by
    by_contra hc
    rw [List.getElem?_eq_none (Nat.le_of_not_lt hc)] at h
    cases h
  rw [List.getElem?_append_left hn]
  exact h

/-- `obj_fill` never touches the hex buffer. -/
theorem obj_fill_hex_buf (cfg : Config) (c : Nat) (s : St) :
    (obj_fill cfg c s).hex_buf = s.hex_buf := by
  rw [obj_fill]
  split
  · rfl
  · match h : cfg.obj_fmt with
    | .OBJ_BIN | .OBJ_MOS =>
      simp only [h]
      split <;> rfl
    | .OBJ_HEX => simp only [h]

/-- After any flush the buffer is empty. -/
theorem flush_hex_buf_nil (s : St) : (flush_hex s).1.hex_buf = [] := by
  rw [flush_hex]
  split
  · rfl
  · rename_i h
    have : s.hex_buf.length = 0 := by omega
    exact List.length_eq_zero.1 this

/-- A hex-mode run appends exactly the supplied bytes to the stream of
record payloads plus pending buffer, and produces no binary bytes and no
errors. -/
theorem runOps_hex_payload (cfg : Config) (h : cfg.obj_fmt = .OBJ_HEX) :
    ∀ (ops : List Op) (s : St),
      recsPayload (runOps cfg s ops).2.recs ++ (runOps cfg s ops).1.hex_buf
        = s.hex_buf ++ expList ops
    ∧ (runOps cfg s ops).2.bytes = [] ∧ (runOps cfg s ops).2.errs = [] := by
  intro ops
  induction ops with
  | nil =>
    intro s
    simp [runOps, expList, Out.nil]
  | cons op rest ih =>
    intro s
    rw [runOps]
    cases op with
    | org a =>
      have hr := ih (obj_org cfg a s)
      have hbuf : (obj_org cfg a s).hex_buf = s.hex_buf := by
        rw [obj_org]
        simp only [h]
      refine ⟨?_, ?_, ?_⟩
      · show recsPayload (Out.app Out.nil (runOps cfg (obj_org cfg a s) rest).2).recs
            ++ (runOps cfg (obj_org cfg a s) rest).1.hex_buf = s.hex_buf ++ expList (Op.org a :: rest)
        rw [Out.app_nil_left, hr.1, hbuf, expList]
      · show (Out.app Out.nil (runOps cfg (obj_org cfg a s) rest).2).bytes = []
        rw [Out.app_nil_left, hr.2.1]
      · show (Out.app Out.nil (runOps cfg (obj_org cfg a s) rest).2).errs = []
        rw [Out.app_nil_left, hr.2.2]
    | writeb bs =>
      have hw := obj_writeb_hex_payload cfg bs s h
      have hr := ih (obj_writeb cfg bs s).1
      refine ⟨?_, ?_, ?_⟩
      · show recsPayload ((obj_writeb cfg bs s).2.recs ++ (runOps cfg (obj_writeb cfg bs s).1 rest).2.recs)
            ++ (runOps cfg (obj_writeb cfg bs s).1 rest).1.hex_buf
            = s.hex_buf ++ expList (Op.writeb bs :: rest)
        rw [recsPayload_append, List.append_assoc, hr.1, ← List.append_assoc, hw.1,
          expList, List.append_assoc]
      · show (obj_writeb cfg bs s).2.bytes ++ (runOps cfg (obj_writeb cfg bs s).1 rest).2.bytes = []
        rw [hw.2.1, hr.2.1, List.append_nil]
      · show (obj_writeb cfg bs s).2.errs ++ (runOps cfg (obj_writeb cfg bs s).1 rest).2.errs = []
        rw [hw.2.2, hr.2.2, List.append_nil]
    | fill c =>
      have hr := ih (obj_fill cfg c s)
      have hbuf := obj_fill_hex_buf cfg c s
      refine ⟨?_, ?_, ?_⟩
      · show recsPayload (Out.app Out.nil (runOps cfg (obj_fill cfg c s) rest).2).recs
            ++ (runOps cfg (obj_fill cfg c s) rest).1.hex_buf = s.hex_buf ++ expList (Op.fill c :: rest)
        rw [Out.app_nil_left, hr.1, hbuf, expList]
      · show (Out.app Out.nil (runOps cfg (obj_fill cfg c s) rest).2).bytes = []
        rw [Out.app_nil_left, hr.2.1]
      · show (Out.app Out.nil (runOps cfg (obj_fill cfg c s) rest).2).errs = []
        rw [Out.app_nil_left, hr.2.2]
    | fillVal c v =>
      have hw := obj_fill_value_hex_payload cfg c v s h
      have hr := ih (obj_fill_value cfg c v s).1
      refine ⟨?_, ?_, ?_⟩
      · show recsPayload ((obj_fill_value cfg c v s).2.recs
              ++ (runOps cfg (obj_fill_value cfg c v s).1 rest).2.recs)
            ++ (runOps cfg (obj_fill_value cfg c v s).1 rest).1.hex_buf
            = s.hex_buf ++ expList (Op.fillVal c v :: rest)
        rw [recsPayload_append, List.append_assoc, hr.1, ← List.append_assoc, hw.1,
          expList, List.append_assoc]
      · show (obj_fill_value cfg c v s).2.bytes
            ++ (runOps cfg (obj_fill_value cfg c v s).1 rest).2.bytes = []
        rw [hw.2.1, hr.2.1, List.append_nil]
      · show (obj_fill_value cfg c v s).2.errs
            ++ (runOps cfg (obj_fill_value cfg c v s).1 rest).2.errs = []
        rw [hw.2.2, hr.2.2, List.append_nil]

/-- Finalizing in hex mode emits exactly the pending buffer as record
payload (the end-of-file record has an empty payload). -/
theorem obj_end_hex_payload (cfg : Config) (start : Nat) (s : St)
    (h : cfg.obj_fmt = .OBJ_HEX) :
    recsPayload (obj_end cfg start s).2.recs = s.hex_buf
  ∧ (obj_end cfg start s).2.bytes = [] ∧ (obj_end cfg start s).2.errs = [] := by
  rw [obj_end]
  simp only [h]
  have hf := flush_hex_payload s
  have hb := flush_hex_buf_nil s
  refine ⟨?_, ?_, ?_⟩
  · show recsPayload ((flush_hex s).2.recs ++ (eof_hex start (flush_hex s).1).2.recs) = s.hex_buf
    have : (eof_hex start (flush_hex s).1).2.recs
        = [hex_record HEX_EOF { (flush_hex s).1 with hex_buf := [], hex_addr := start % 65536 }] := rfl
    rw [recsPayload_append, this]
    have h2 : recsPayload [hex_record HEX_EOF
        { (flush_hex s).1 with hex_buf := [], hex_addr := start % 65536 }] = [] := by
      simp [hex_record]
    rw [h2, List.append_nil]
    have := hf.1
    rw [hb, List.append_nil] at this
    exact this
  · show (flush_hex s).2.bytes ++ (eof_hex start (flush_hex s).1).2.bytes = []
    rw [hf.2.1]
    rfl
  · show (flush_hex s).2.errs ++ (eof_hex start (flush_hex s).1).2.errs = []
    rw [hf.2.2]
    rfl

theorem runOps_cons_fst (cfg : Config) (s : St) (op : Op) (rest : List Op) :
    (runOps cfg s (op :: rest)).1 = (runOps cfg (step cfg s op).1 rest).1 := rfl

theorem runOps_cons_snd (cfg : Config) (s : St) (op : Op) (rest : List Op) :
    (runOps cfg s (op :: rest)).2
      = Out.app (step cfg s op).2 (runOps cfg (step cfg s op).1 rest).2 := rfl

/-- Normal form of `obj_fill` for binary formats with the latch clear. -/
theorem obj_fill_bin (cfg : Config) (c : Nat) (s : St)
    (hfmt : cfg.obj_fmt = .OBJ_BIN ∨ cfg.obj_fmt = .OBJ_MOS)
    (hn : s.nseq_flag = false) :
    obj_fill cfg c s =
      if c % 65536 = 0 then s
      else { s with curr_addr := (s.curr_addr + c % 65536) % 65536 } := by
  rcases hfmt with h | h <;>
  · rw [obj_fill]
    split
    · rfl
    · simp only [h]
      rw [if_neg (show ¬(s.nseq_flag = true) by simp [hn])]

/-- A binary-format run with the load-address gate inert, no origin
changes and no 16-bit wrap is exact: the latch stays clear, the logical
address advances by the total span, the file grows to exactly the physical
cursor, and every supplied byte can be read back at its address. -/
theorem step_org (cfg : Config) (s : St) (a : Nat) :
    step cfg s (Op.org a) = (obj_org cfg a s, Out.nil) := rfl

theorem step_writeb (cfg : Config) (s : St) (bs : List Nat) :
    step cfg s (Op.writeb bs) = obj_writeb cfg bs s := rfl

theorem step_fill (cfg : Config) (s : St) (c : Nat) :
    step cfg s (Op.fill c) = (obj_fill cfg c s, Out.nil) := rfl

theorem step_fillVal (cfg : Config) (s : St) (c v : Nat) :
    step cfg s (Op.fillVal c v) = obj_fill_value cfg c v s := rfl

/-- A binary-format run with the load-address gate inert, no origin
changes and no 16-bit wrap is exact: the latch stays clear, the logical
address advances by the total span, the file grows to exactly the physical
cursor, and every supplied byte can be read back at its address. -/
theorem runOps_bin_exact (cfg : Config)
    (hfmt : cfg.obj_fmt = .OBJ_BIN ∨ cfg.obj_fmt = .OBJ_MOS)
    (hgate : cfg.load_flag = false ∨ cfg.load_addr = 0) :
    ∀ (ops : List Op) (s : St) (out0 : List Nat),
      hasOrg ops = false →
      s.nseq_flag = false →
      s.bin_addr ≤ s.curr_addr →
      out0.length = s.bin_addr →
      s.curr_addr + spanLen ops < 65536 →
      (runOps cfg s ops).1.nseq_flag = false
      ∧ (runOps cfg s ops).1.curr_addr = s.curr_addr + spanLen ops
      ∧ (runOps cfg s ops).1.bin_addr ≤ (runOps cfg s ops).1.curr_addr
      ∧ (out0 ++ (runOps cfg s ops).2.bytes).length = (runOps cfg s ops).1.bin_addr
      ∧ ∀ p ∈ expAt s.curr_addr ops,
          (out0 ++ (runOps cfg s ops).2.bytes)[p.1]? = some p.2 := by
  have hg : ∀ b : Nat, ¬(cfg.load_flag = true ∧ b < cfg.load_addr) := by
    intro b hb
    rcases hgate with h | h
    · rw [h] at hb
      exact absurd hb.1 (by simp)
    · rw [h] at hb
      omega
  intro ops
  induction ops with
  | nil =>
    intro s out0 _ hn hbc hlen _
    rw [runOps]
    refine ⟨hn, by rw [spanLen_nil, Nat.add_zero], hbc, ?_, ?_⟩
    · show (out0 ++ ([] : List Nat)).length = s.bin_addr
      rw [List.append_nil]
      exact hlen
    · intro p hp
      simp [expAt] at hp
  | cons op rest ih =>
    intro s out0 hno hn hbc hlen hspan
    rw [hasOrg, List.any_cons, Bool.or_eq_false_iff] at hno
    obtain ⟨hno1, hno2⟩ := hno
    have hno2' : hasOrg rest = false := hno2
    rw [spanLen_cons] at hspan
    rw [runOps_cons_fst, runOps_cons_snd]
    cases op with
    | org a => exact absurd hno1 (by simp [isOrg])
    | writeb bs =>
      rw [step_writeb]
      by_cases hbs : bs.length = 0
      · obtain rfl : bs = [] := List.length_eq_zero.1 hbs
        have hw : obj_writeb cfg [] s = (s, Out.nil) := by
          rw [obj_writeb]
          rfl
        rw [hw]
        have ihr := ih s out0 hno2' hn hbc hlen (by simpa [opLen] using hspan)
        refine ⟨ihr.1, ?_, ihr.2.2.1, ?_, ?_⟩
        · show (runOps cfg s rest).1.curr_addr = s.curr_addr + spanLen (Op.writeb [] :: rest)
          rw [ihr.2.1, spanLen_cons]
          simp [opLen]
        · show (out0 ++ (Out.app Out.nil (runOps cfg s rest).2).bytes).length
              = (runOps cfg s rest).1.bin_addr
          rw [Out.app_nil_left]
          exact ihr.2.2.2.1
        · intro p hp
          rw [expAt] at hp
          simp only [withAddrs, List.nil_append, List.length_nil, Nat.add_zero] at hp
          show (out0 ++ (Out.app Out.nil (runOps cfg s rest).2).bytes)[p.1]? = some p.2
          rw [Out.app_nil_left]
          exact ihr.2.2.2.2 p hp
      · have hsp : s.curr_addr + (bs.length + spanLen rest) < 65536 := by
          simpa [opLen] using hspan
        have hw := obj_writeb_bin cfg bs s hfmt hn hbs
        rw [if_neg (hg s.bin_addr), Nat.max_eq_right hbc,
          Nat.mod_eq_of_lt (show s.curr_addr + bs.length < 65536 by omega)] at hw
        rw [hw]
        set s1 : St := { s with bin_addr := s.curr_addr + bs.length,
                                curr_addr := s.curr_addr + bs.length } with hs1
        set out1 : List Nat := List.replicate (s.curr_addr - s.bin_addr) 0xff ++ bs with hout1
        have hcur1 : s1.curr_addr = s.curr_addr + bs.length := rfl
        have hbin1 : s1.bin_addr = s.curr_addr + bs.length := rfl
        have ihr := ih s1 (out0 ++ out1) hno2' hn (by rw [hcur1, hbin1])
          (by rw [hbin1, hout1]
              simp only [List.length_append, List.length_replicate]
              omega)
          (by rw [hcur1]; omega)
        refine ⟨ihr.1, ?_, ihr.2.2.1, ?_, ?_⟩
        · rw [ihr.2.1, hcur1, spanLen_cons]
          show s.curr_addr + bs.length + spanLen rest
              = s.curr_addr + (opLen (Op.writeb bs) + spanLen rest)
          simp only [opLen]
          omega
        · have h4 := ihr.2.2.2.1
          show (out0 ++ (Out.app ⟨out1, [], []⟩ (runOps cfg s1 rest).2).bytes).length
              = (runOps cfg s1 rest).1.bin_addr
          rw [Out.app_bytes]
          show (out0 ++ (out1 ++ (runOps cfg s1 rest).2.bytes)).length
              = (runOps cfg s1 rest).1.bin_addr
          rw [← List.append_assoc]
          exact h4
        · intro p hp
          rw [expAt, List.mem_append] at hp
          show (out0 ++ (Out.app ⟨out1, [], []⟩ (runOps cfg s1 rest).2).bytes)[p.1]? = some p.2
          rw [Out.app_bytes]
          show (out0 ++ (out1 ++ (runOps cfg s1 rest).2.bytes))[p.1]? = some p.2
          rw [← List.append_assoc]
          rcases hp with hp | hp
          · have hL : (out0 ++ List.replicate (s.curr_addr - s.bin_addr) 0xff).length
                = s.curr_addr := by
              simp only [List.length_append, List.length_replicate]
              omega
            have hlk := withAddrs_lookup bs
              (out0 ++ List.replicate (s.curr_addr - s.bin_addr) 0xff)
              p (by rw [hL]; exact hp)
            have hout : out0 ++ out1
                = (out0 ++ List.replicate (s.curr_addr - s.bin_addr) 0xff) ++ bs := by
              rw [hout1, List.append_assoc]
            rw [hout]
            exact getElem?_append_some hlk
          · have h5 := ihr.2.2.2.2 p (by rw [hcur1]; exact hp)
            exact h5
    | fill c =>
      rw [step_fill]
      have hf := obj_fill_bin cfg c s hfmt hn
      have hsp : s.curr_addr + (c % 65536 + spanLen rest) < 65536 := by
        simpa [opLen] using hspan
      by_cases hcz : c % 65536 = 0
      · rw [if_pos hcz] at hf
        rw [hf]
        have ihr := ih s out0 hno2' hn hbc hlen (by omega)
        refine ⟨ihr.1, ?_, ihr.2.2.1, ?_, ?_⟩
        · show (runOps cfg s rest).1.curr_addr = s.curr_addr + spanLen (Op.fill c :: rest)
          rw [ihr.2.1, spanLen_cons]
          show s.curr_addr + spanLen rest = s.curr_addr + (opLen (Op.fill c) + spanLen rest)
          simp only [opLen, hcz]
          omega
        · show (out0 ++ (Out.app Out.nil (runOps cfg s rest).2).bytes).length
              = (runOps cfg s rest).1.bin_addr
          rw [Out.app_nil_left]
          exact ihr.2.2.2.1
        · intro p hp
          rw [expAt, hcz, Nat.add_zero] at hp
          show (out0 ++ (Out.app Out.nil (runOps cfg s rest).2).bytes)[p.1]? = some p.2
          rw [Out.app_nil_left]
          exact ihr.2.2.2.2 p hp
      · rw [if_neg hcz, Nat.mod_eq_of_lt (show s.curr_addr + c % 65536 < 65536 by omega)] at hf
        rw [hf]
        set s1 : St := { s with curr_addr := s.curr_addr + c % 65536 } with hs1
        have hcur1 : s1.curr_addr = s.curr_addr + c % 65536 := rfl
        have hbin1 : s1.bin_addr = s.bin_addr := rfl
        have ihr := ih s1 out0 hno2' hn (by rw [hcur1, hbin1]; omega)
          (by rw [hbin1]; exact hlen) (by rw [hcur1]; omega)
        refine ⟨ihr.1, ?_, ihr.2.2.1, ?_, ?_⟩
        · rw [ihr.2.1, hcur1, spanLen_cons]
          show s.curr_addr + c % 65536 + spanLen rest
              = s.curr_addr + (opLen (Op.fill c) + spanLen rest)
          simp only [opLen]
          omega
        · show (out0 ++ (Out.app Out.nil (runOps cfg s1 rest).2).bytes).length
              = (runOps cfg s1 rest).1.bin_addr
          rw [Out.app_nil_left]
          exact ihr.2.2.2.1
        · intro p hp
          rw [expAt] at hp
          show (out0 ++ (Out.app Out.nil (runOps cfg s1 rest).2).bytes)[p.1]? = some p.2
          rw [Out.app_nil_left]
          exact ihr.2.2.2.2 p (by rw [hcur1]; exact hp)
    | fillVal c v =>
      rw [step_fillVal]
      have hsp : s.curr_addr + (c % 65536 + spanLen rest) < 65536 := by
        simpa [opLen] using hspan
      by_cases hcz : c % 65536 = 0
      · have hw : obj_fill_value cfg c v s = (s, Out.nil) := by
          rw [obj_fill_value]
          rw [if_pos hcz]
        rw [hw]
        have ihr := ih s out0 hno2' hn hbc hlen (by omega)
        refine ⟨ihr.1, ?_, ihr.2.2.1, ?_, ?_⟩
        · show (runOps cfg s rest).1.curr_addr = s.curr_addr + spanLen (Op.fillVal c v :: rest)
          rw [ihr.2.1, spanLen_cons]
          show s.curr_addr + spanLen rest = s.curr_addr + (opLen (Op.fillVal c v) + spanLen rest)
          simp only [opLen, hcz]
          omega
        · show (out0 ++ (Out.app Out.nil (runOps cfg s rest).2).bytes).length
              = (runOps cfg s rest).1.bin_addr
          rw [Out.app_nil_left]
          exact ihr.2.2.2.1
        · intro p hp
          rw [expAt, hcz] at hp
          simp only [List.replicate_zero, withAddrs, List.nil_append, Nat.add_zero] at hp
          show (out0 ++ (Out.app Out.nil (runOps cfg s rest).2).bytes)[p.1]? = some p.2
          rw [Out.app_nil_left]
          exact ihr.2.2.2.2 p hp
      · have hw := obj_fill_value_bin cfg c v s hfmt hn hcz
        rw [if_neg (hg s.bin_addr), Nat.max_eq_right hbc,
          Nat.mod_eq_of_lt (show s.curr_addr + c % 65536 < 65536 by omega)] at hw
        rw [hw]
        set s1 : St := { s with bin_addr := s.curr_addr + c % 65536,
                                curr_addr := s.curr_addr + c % 65536 } with hs1
        set out1 : List Nat := List.replicate (s.curr_addr - s.bin_addr) 0xff
          ++ List.replicate (c % 65536) (v % 65536 % 256) with hout1
        have hcur1 : s1.curr_addr = s.curr_addr + c % 65536 := rfl
        have hbin1 : s1.bin_addr = s.curr_addr + c % 65536 := rfl
        have ihr := ih s1 (out0 ++ out1) hno2' hn (by rw [hcur1, hbin1])
          (by rw [hbin1, hout1]
              simp only [List.length_append, List.length_replicate]
              omega)
          (by rw [hcur1]; omega)
        refine ⟨ihr.1, ?_, ihr.2.2.1, ?_, ?_⟩
        · rw [ihr.2.1, hcur1, spanLen_cons]
          show s.curr_addr + c % 65536 + spanLen rest
              = s.curr_addr + (opLen (Op.fillVal c v) + spanLen rest)
          simp only [opLen]
          omega
        · have h4 := ihr.2.2.2.1
          show (out0 ++ (Out.app ⟨out1, [], []⟩ (runOps cfg s1 rest).2).bytes).length
              = (runOps cfg s1 rest).1.bin_addr
          rw [Out.app_bytes]
          show (out0 ++ (out1 ++ (runOps cfg s1 rest).2.bytes)).length
              = (runOps cfg s1 rest).1.bin_addr
          rw [← List.append_assoc]
          exact h4
        · intro p hp
          rw [expAt, List.mem_append] at hp
          show (out0 ++ (Out.app ⟨out1, [], []⟩ (runOps cfg s1 rest).2).bytes)[p.1]? = some p.2
          rw [Out.app_bytes]
          show (out0 ++ (out1 ++ (runOps cfg s1 rest).2.bytes))[p.1]? = some p.2
          rw [← List.append_assoc]
          rcases hp with hp | hp
          · have hL : (out0 ++ List.replicate (s.curr_addr - s.bin_addr) 0xff).length
                = s.curr_addr := by
              simp only [List.length_append, List.length_replicate]
              omega
            have hlk := withAddrs_lookup (List.replicate (c % 65536) (v % 65536 % 256))
              (out0 ++ List.replicate (s.curr_addr - s.bin_addr) 0xff)
              p (by rw [hL]; exact hp)
            have hout : out0 ++ out1
                = (out0 ++ List.replicate (s.curr_addr - s.bin_addr) 0xff)
                  ++ List.replicate (c % 65536) (v % 65536 % 256) := by
              rw [hout1, List.append_assoc]
            rw [hout]
            exact getElem?_append_some hlk
          · exact ihr.2.2.2.2 p (by rw [hcur1]; exact hp)
/-- C1 counterexample: with a load address configured (RAW_BINARY, load
address 1), the single write of byte 0xAA at address 0 — trivially a
strictly increasing address sequence — is discarded behind the load gate:
the finished file holds no bytes at all, so the supplied payload byte is
lost, contradicting the claim for arbitrary initial configurations. -/
theorem c1_load_gate_loses_bytes :
    expAt 0 [Op.writeb [0xAA]] = [(0, 0xAA)]
  ∧ (assemble cfgBinLoad [Op.writeb [0xAA]] 0).bytes = []
  ∧ (assemble cfgBinLoad [Op.writeb [0xAA]] 0).errs = [E_BFRORG] := by
  decide

/-- C1 (amended): For every output format, starting from the freshly
initialized emission state after `begin()` and **provided no load-address
gate is active** (no load address configured, or it is 0), every sequence
of `write`/`skip`/`fill_value` operations whose logical addresses are
strictly increasing (no origin changes, total span below 2^16), followed
by `end(start_address)`, produces an object file whose payload bytes,
taken in address order, are exactly the bytes supplied: in the binary
formats every supplied byte is read back at its address (offset by the
3-byte header for LOADER_BINARY), and in hex mode the concatenated record
payloads equal the supplied byte sequence. -/
theorem c1_payload_preserved (cfg : Config) (ops : List Op) (start : Nat)
    (horg : hasOrg ops = false)
    (hspan : spanLen ops < 65536)
    (hgate : cfg.load_flag = false ∨ cfg.load_addr = 0) :
    (cfg.obj_fmt = .OBJ_BIN →
       ∀ p ∈ expAt 0 ops, (assemble cfg ops start).bytes[p.1]? = some p.2)
  ∧ (cfg.obj_fmt = .OBJ_MOS →
       ∀ p ∈ expAt 0 ops, (assemble cfg ops start).bytes[3 + p.1]? = some p.2)
  ∧ (cfg.obj_fmt = .OBJ_HEX →
       recsPayload (assemble cfg ops start).recs = expList ops) := by
  refine ⟨?_, ?_, ?_⟩
  · intro h p hp
    have hmain := runOps_bin_exact cfg (Or.inl h) hgate ops initSt [] horg rfl
      (Nat.le_refl 0) rfl (by show 0 + spanLen ops < 65536; omega)
    have hlook := hmain.2.2.2.2 p hp
    rw [List.nil_append] at hlook
    show (obj_header cfg ++ ((runOps cfg initSt ops).2.bytes
        ++ (obj_end cfg start (runOps cfg initSt ops).1).2.bytes))[p.1]? = some p.2
    rw [obj_header]
    simp only [h]
    rw [List.nil_append]
    exact getElem?_append_some hlook
  · intro h p hp
    have hmain := runOps_bin_exact cfg (Or.inr h) hgate ops initSt [] horg rfl
      (Nat.le_refl 0) rfl (by show 0 + spanLen ops < 65536; omega)
    have hlook := hmain.2.2.2.2 p hp
    rw [List.nil_append] at hlook
    show (obj_header cfg ++ ((runOps cfg initSt ops).2.bytes
        ++ (obj_end cfg start (runOps cfg initSt ops).1).2.bytes))[3 + p.1]? = some p.2
    rw [obj_header]
    simp only [h]
    have hle : ([0xff, cfg.load_addr % 256, cfg.load_addr / 256 % 256] : List Nat).length
        ≤ 3 + p.1 := by
      simp
    rw [List.getElem?_append_right hle]
    have h3 : 3 + p.1 - ([0xff, cfg.load_addr % 256,
        cfg.load_addr / 256 % 256] : List Nat).length = p.1 := by
      simp
    rw [h3]
    exact getElem?_append_some hlook
  · intro h
    have hr := runOps_hex_payload cfg h ops initSt
    have he := obj_end_hex_payload cfg start (runOps cfg initSt ops).1 h
    show recsPayload (([] : List HexRec) ++ ((runOps cfg initSt ops).2.recs
        ++ (obj_end cfg start (runOps cfg initSt ops).1).2.recs)) = expList ops
    rw [List.nil_append, recsPayload_append, he.1, hr.1]
    simp [initSt]

/-- Witness for C1: a concrete monotone run in raw-binary and hex mode. -/
theorem c1_payload_preserved_witness :
    (assemble cfgBin [Op.writeb [1, 2], Op.fill 2, Op.fillVal 1 300] 0).bytes[4]? = some 44
  ∧ recsPayload (assemble cfgHex4 [Op.writeb [1, 2], Op.fill 2, Op.fillVal 1 300] 0).recs
      = expList [Op.writeb [1, 2], Op.fill 2, Op.fillVal 1 300] :=
  ⟨(c1_payload_preserved cfgBin [Op.writeb [1, 2], Op.fill 2, Op.fillVal 1 300] 0
      (by decide) (by decide) (Or.inl rfl)).1 rfl (4, 44) (by decide),
   (c1_payload_preserved cfgHex4 [Op.writeb [1, 2], Op.fill 2, Op.fillVal 1 300] 0
      (by decide) (by decide) (Or.inl rfl)).2.2 rfl⟩

end Z80Aout
